import Mathlib

/-!
Shallow embedding of the in-place binary substitution engine of the
`translator` program (src/main.rs), together with theorems checking the
natural-language specification against it.

Modelling conventions:
* Byte buffers and byte patterns are `List Nat` (each element a byte value).
* Strings are modelled as lists of Unicode scalar values (`List Nat`).
* Panics (arithmetic underflow of `usize`, out-of-bounds indexing,
  `Result::unwrap` on an error) are modelled by `Option`: `none` means the
  Rust program panics on that input.
* Diagnostic output (`println!`) is modelled by an explicit list of
  diagnostic events.
-/

namespace Translator

/-- One in-place write loop: `for j in 0..vs.len() \x7b src[i+j] = vs[j] \x7d`,
element by element, as in the two write loops of `replace_slice`. -/
def writeAt : List Nat → Nat → List Nat → List Nat
  | src, _, [] => src
  | src, i, v :: vs => writeAt (src.set i v) (i+1) vs

/-- The inner match loop of `replace_slice`: `for j in 0..from.len()`,
comparing `source[i+j]` with `from[j]`; `true` when every byte agrees
(the `continue 'outer` is never taken). Indices are in bounds whenever the
caller respects the scan range. -/
def matchesAt (src fromP : List Nat) (i : Nat) : Bool :=
  (List.range fromP.length).all fun j => src.getD (i+j) 0 == fromP.getD j 0

/-- One iteration of the `'outer` loop of `replace_slice` at scan offset `i`:
on a match, zero-fill the `from`-span, overwrite with `to`, and record the
matched offset (the recorded list's length is `number_replaced`). -/
def replaceStep (fromP toP : List Nat) (st : List Nat × List Nat) (i : Nat) :
    List Nat × List Nat :=
  if matchesAt st.1 fromP i then
    (writeAt (writeAt st.1 i (List.replicate fromP.length 0)) i toP, st.2 ++ [i])
  else
    st

/-- The whole `'outer` loop of `replace_slice`, scanning offsets
`0, 1, ..., n-1` left to right. -/
def replaceRun (fromP toP src : List Nat) (n : Nat) : List Nat × List Nat :=
  (List.range n).foldl (replaceStep fromP toP) (src, [])

/-- Embedding of `replace_slice` (src/main.rs lines 117-144).  The scan range
is `0 .. source.len() - end_offset + 1` with
`end_offset = max(from.len(), to.len())` in `usize` arithmetic: when
`source.len() < end_offset` the subtraction underflows, which panics in a
checked build and, in a wrapping build, produces a huge range whose first
out-of-range access panics; both are modelled as `none`.  Otherwise every
access of the loop is in bounds and the run is total: the result is the
rewritten buffer together with `number_replaced`. -/
def replace_slice (source fromP toP : List Nat) : Option (List Nat × Nat) :=
  let end_offset := max fromP.length toP.length
  if source.length < end_offset then none
  else
    let r := replaceRun fromP toP source (source.length - end_offset + 1)
    some (r.1, r.2.length)

/-- The list of scan offsets at which `replace_slice` performed a replacement,
in scan order (meaningful when the run does not panic). -/
def matchedOffsets (source fromP toP : List Nat) : List Nat :=
  (replaceRun fromP toP source
    (source.length - max fromP.length toP.length + 1)).2

/-- An occurrence of pattern `fromP` at offset `i` of `src`: the pattern fits
inside the buffer and every byte agrees. -/
def occursAtB (src fromP : List Nat) (i : Nat) : Bool :=
  decide (i + fromP.length ≤ src.length) && matchesAt src fromP i

/-- Number of (possibly overlapping) occurrences of `fromP` in `src`. -/
def countOccurrences (src fromP : List Nat) : Nat :=
  ((List.range (src.length + 1 - fromP.length)).filter (occursAtB src fromP)).length

/-- UTF-16 code units of one Unicode scalar value, as produced by the
standard UTF-16 encoding step used at line 83: scalars below 2^16 are one
code unit, larger scalars become a surrogate pair. -/
def encodeUtf16Char (c : Nat) : List Nat :=
  if c < 65536 then [c]
  else [55296 + (c - 65536) / 1024, 56320 + (c - 65536) % 1024]

/-- Little-endian byte pair of one 16-bit code unit, as pushed by lines 90-91:
`v as u8` then `(v >> 8) as u8`. -/
def u16le (v : Nat) : List Nat := [v % 256, v / 256 % 256]

/-- Embedding of `string_to_utf16_vec` (src/main.rs lines 82-95): collect the
UTF-16 code units of the string, push a `0` terminator unit, then emit each
unit as two bytes, low byte first. -/
def string_to_utf16_vec (original : List Nat) : List Nat :=
  ((original.flatMap encodeUtf16Char) ++ [0]).flatMap u16le

/-- The spec's description of the Text Codec output, stated independently of
the code's push order: the UTF-16 little-endian byte encoding of the input
(two bytes per code unit, low byte first), to be followed by a two-byte zero
terminator. -/
def utf16le_bytes (s : List Nat) : List Nat :=
  (s.flatMap encodeUtf16Char).flatMap u16le

/-- A translation table entry: original and translated text (lists of
Unicode scalar values). -/
structure Translation where
  original : List Nat
  translated : List Nat
deriving DecidableEq

/-- Diagnostic events printed by `translate`: the two length-mismatch
warnings (lines 104 and 106) and the per-entry replacement report
(line 113). -/
inductive Diag
  | warnHarmful : List Nat → List Nat → Diag
  | warnSkip : List Nat → List Nat → Diag
  | reportReplaced : Nat → List Nat → Diag
deriving DecidableEq

/-- Embedding of `translate` (src/main.rs lines 97-115): for each entry in
table order, encode both strings; if the encoded original is strictly shorter
than the encoded translation, either warn and proceed (flag set) or warn and
skip the entry (flag clear); otherwise call `replace_slice` and report the
count.  A panic inside `replace_slice` aborts the whole run (`none`). -/
def translate (slice : List Nat) (translations : List Translation)
    (potentially_harmful : Bool) : Option (List Nat × List Diag) :=
  match translations with
  | [] => some (slice, [])
  | t :: rest =>
    let o := string_to_utf16_vec t.original
    let tr := string_to_utf16_vec t.translated
    if o.length < tr.length then
      if potentially_harmful then
        (replace_slice slice o tr).bind fun st =>
          (translate st.1 rest potentially_harmful).map
            (fun r => (r.1, Diag.warnHarmful t.original t.translated ::
              Diag.reportReplaced st.2 t.original :: r.2))
      else
        (translate slice rest potentially_harmful).map
          (fun r => (r.1, Diag.warnSkip t.original t.translated :: r.2))
    else
      (replace_slice slice o tr).bind fun st =>
        (translate st.1 rest potentially_harmful).map
          (fun r => (r.1, Diag.reportReplaced st.2 t.original :: r.2))

/-- A PE section as the Region Selector sees it: a name (`none` when the
name bytes cannot be decoded, in which case `section.name()` is an `Err` and
`.unwrap()` panics), and the raw-data extent. -/
structure PESection where
  name : Option (List Nat)
  pointer_to_raw_data : Nat
  size_of_raw_data : Nat
deriving DecidableEq

/-- The byte values of the target section name `".rdata"`. -/
def rdataName : List Nat := [46, 114, 100, 97, 116, 97]

/-- One iteration of the section loop of `main` (src/main.rs lines 186-193):
`section.name().unwrap()` (panic when the name cannot be decoded), compare
with `".rdata"`, and on a match run `translate` on the in-place subslice
`exe_buf[ptr .. ptr + size]` (panic when the slice is out of bounds). -/
def processSection (buf : List Nat) (s : PESection) (ts : List Translation)
    (ph : Bool) : Option (List Nat) :=
  match s.name with
  | none => none
  | some n =>
    if n = rdataName then
      if s.pointer_to_raw_data + s.size_of_raw_data ≤ buf.length then
        (translate ((buf.drop s.pointer_to_raw_data).take s.size_of_raw_data) ts ph).map
          (fun r => buf.take s.pointer_to_raw_data ++ r.1 ++
            buf.drop (s.pointer_to_raw_data + s.size_of_raw_data))
      else none
    else some buf

/-- The whole section loop of `main`: sections are visited in order and the
buffer mutations of one iteration are visible to the next. -/
def processSections (buf : List Nat) (ss : List PESection)
    (ts : List Translation) (ph : Bool) : Option (List Nat) :=
  match ss with
  | [] => some buf
  | s :: rest => (processSection buf s ts ph).bind
      (fun b => processSections b rest ts ph)

theorem length_writeAt (vs : List Nat) : ∀ (src : List Nat) (i : Nat),
    (writeAt src i vs).length = src.length := by
  induction vs with
  | nil => intro src i; rfl
  | cons v vs ih => intro src i; simp [writeAt, ih]

theorem writeAt_cons (a : Nat) (vs : List Nat) : ∀ (src : List Nat) (i : Nat),
    writeAt (a :: src) (i+1) vs = a :: writeAt src i vs := by
  induction vs with
  | nil => intro src i; rfl
  | cons v vs ih => intro src i; simp [writeAt, List.set_cons_succ, ih]

theorem writeAt_zero (vs : List Nat) : ∀ (src : List Nat),
    vs.length ≤ src.length → writeAt src 0 vs = vs ++ src.drop vs.length := by
  induction vs with
  | nil => intro src _; simp [writeAt]
  | cons v vs ih =>
    intro src h
    cases src with
    | nil => simp at h
    | cons a src =>
      simp only [writeAt, List.set_cons_zero, writeAt_cons]
      simp only [List.length_cons, Nat.add_le_add_iff_right] at h
      simp [ih src h]

theorem writeAt_eq_take_append_drop (vs : List Nat) : ∀ (src : List Nat) (i : Nat),
    i + vs.length ≤ src.length →
    writeAt src i vs = src.take i ++ vs ++ src.drop (i + vs.length) := by
  intro src i
  induction i generalizing src with
  | zero => intro h; simpa using writeAt_zero vs src (by omega)
  | succ i ih =>
    intro h
    cases src with
    | nil => simp at h
    | cons a src =>
      simp only [List.length_cons] at h
      have h' : i + vs.length ≤ src.length := by omega
      simp only [writeAt_cons, ih src h', List.take_succ_cons, List.cons_append]
      congr 1
      simp [List.drop_succ_cons, Nat.succ_add]

theorem getD_writeAt_frame (vs : List Nat) : ∀ (src : List Nat) (i k : Nat),
    k < i ∨ i + vs.length ≤ k →
    (writeAt src i vs).getD k 0 = src.getD k 0 := by
  induction vs with
  | nil => intro src i k _; rfl
  | cons v vs ih =>
    intro src i k hk
    simp only [List.length_cons] at hk
    simp only [writeAt]
    have hk' : k < i + 1 ∨ i + 1 + vs.length ≤ k := by omega
    rw [ih (src.set i v) (i+1) k hk']
    have hne : i ≠ k := by omega
    simp [List.getD_eq_getElem?_getD, List.getElem?_set_ne hne]

theorem mem_range'_iff (s n m : Nat) : m ∈ List.range' s n ↔ s ≤ m ∧ m < s + n := by
  rw [List.mem_range']
  constructor
  · rintro ⟨i, hi, rfl⟩; omega
  · intro h; exact ⟨m - s, by omega, by omega⟩

theorem foldl_no_match (fromP toP : List Nat) :
    ∀ (l : List Nat) (src acc : List Nat),
    (∀ i ∈ l, matchesAt src fromP i = false) →
    l.foldl (replaceStep fromP toP) (src, acc) = (src, acc) := by
  intro l
  induction l with
  | nil => intro src acc _; rfl
  | cons i l ih =>
    intro src acc h
    have hi : matchesAt src fromP i = false := h i (List.mem_cons_self i l)
    simp only [List.foldl_cons, replaceStep, hi, Bool.false_eq_true, if_false]
    exact ih src acc fun j hj => h j (List.mem_cons_of_mem i hj)

theorem foldl_acc_append (fromP toP : List Nat) :
    ∀ (l : List Nat) (src acc : List Nat),
    l.foldl (replaceStep fromP toP) (src, acc) =
      ((l.foldl (replaceStep fromP toP) (src, [])).1,
       acc ++ (l.foldl (replaceStep fromP toP) (src, [])).2) := by
  intro l
  induction l with
  | nil => intro src acc; simp
  | cons i l ih =>
    intro src acc
    simp only [List.foldl_cons]
    cases hm : matchesAt src fromP i with
    | false =>
      simp only [replaceStep, hm, Bool.false_eq_true, if_false]
      exact ih src acc
    | true =>
      simp only [replaceStep, hm, if_true]
      rw [ih _ (acc ++ [i]), ih _ ([] ++ [i])]
      simp

theorem foldl_fst_length (fromP toP : List Nat) :
    ∀ (l : List Nat) (src acc : List Nat),
    ((l.foldl (replaceStep fromP toP) (src, acc)).1).length = src.length := by
  intro l
  induction l with
  | nil => intro src acc; rfl
  | cons i l ih =>
    intro src acc
    simp only [List.foldl_cons]
    cases hm : matchesAt src fromP i with
    | false =>
      simp only [replaceStep, hm, Bool.false_eq_true, if_false]
      exact ih src acc
    | true =>
      simp only [replaceStep, hm, if_true]
      rw [ih _ (acc ++ [i])]
      simp [length_writeAt]

theorem foldl_frame (fromP toP : List Nat) :
    ∀ (l : List Nat) (src acc res m : List Nat),
    l.foldl (replaceStep fromP toP) (src, acc) = (res, m) →
    ∀ k, (∀ i ∈ m, k < i ∨ i + max fromP.length toP.length ≤ k) →
    res.getD k 0 = src.getD k 0 := by
  intro l
  induction l with
  | nil =>
    intro src acc res m h k _
    simp only [List.foldl_nil, Prod.mk.injEq] at h
    rw [h.1]
  | cons i l ih =>
    intro src acc res m h k hk
    simp only [List.foldl_cons] at h
    cases hm : matchesAt src fromP i with
    | false =>
      simp only [replaceStep, hm, Bool.false_eq_true, if_false] at h
      exact ih src acc res m h k hk
    | true =>
      simp only [replaceStep, hm, if_true] at h
      have hmem : i ∈ m := by
        have hax := foldl_acc_append fromP toP l
          (writeAt (writeAt src i (List.replicate fromP.length 0)) i toP) (acc ++ [i])
        rw [h] at hax
        simp only [Prod.mk.injEq] at hax
        rw [hax.2]
        simp
      have hspan := hk i hmem
      have h1 := ih _ _ res m h k hk
      rw [h1]
      rw [getD_writeAt_frame toP _ i k (by omega)]
      rw [getD_writeAt_frame (List.replicate fromP.length 0) src i k ?_]
      simp only [List.length_replicate]
      omega

theorem matchesAt_nil (src : List Nat) (i : Nat) : matchesAt src [] i = true := rfl

theorem foldl_count_nil (toP : List Nat) :
    ∀ (l : List Nat) (src acc : List Nat),
    ((l.foldl (replaceStep [] toP) (src, acc)).2).length = acc.length + l.length := by
  intro l
  induction l with
  | nil => intro src acc; rfl
  | cons i l ih =>
    intro src acc
    simp only [List.foldl_cons, replaceStep, matchesAt_nil, if_true]
    rw [ih _ (acc ++ [i])]
    simp only [List.length_append, List.length_cons, List.length_nil]
    omega

theorem replaceRun_single (fromP toP source : List Nat) (n i0 : Nat)
    (hi0 : i0 < n)
    (hpre : ∀ i, i < i0 → matchesAt source fromP i = false)
    (hm : matchesAt source fromP i0 = true)
    (hpost : ∀ i, i0 < i → i < n →
      matchesAt (writeAt (writeAt source i0 (List.replicate fromP.length 0)) i0 toP)
        fromP i = false) :
    replaceRun fromP toP source n =
      (writeAt (writeAt source i0 (List.replicate fromP.length 0)) i0 toP, [i0]) := by
  unfold replaceRun
  have hsplit : List.range n = List.range' 0 i0 ++ List.range' i0 (n - i0) := by
    rw [List.range_eq_range']
    have h1 := List.range'_append_1 0 i0 (n - i0)
    simp only [Nat.zero_add] at h1
    have h2 : n - i0 + i0 = n := by omega
    rw [h2] at h1
    exact h1.symm
  rw [hsplit, List.foldl_append]
  rw [foldl_no_match fromP toP _ source [] ?_]
  · have hsucc : List.range' i0 (n - i0) = i0 :: List.range' (i0 + 1) (n - i0 - 1) := by
      have h2 := List.range'_succ i0 (n - i0 - 1) 1
      have h3 : n - i0 - 1 + 1 = n - i0 := by omega
      rw [h3] at h2
      simpa using h2
    rw [hsucc]
    simp only [List.foldl_cons, replaceStep, hm, if_true]
    rw [foldl_no_match fromP toP _ _ _ ?_]
    · simp
    · intro i hi
      rw [mem_range'_iff] at hi
      exact hpost i (by omega) (by omega)
  · intro i hi
    rw [mem_range'_iff] at hi
    exact hpre i (by omega)

theorem rewrite_buffer_eq (source fromP toP : List Nat) (i0 : Nat)
    (hb : i0 + fromP.length ≤ source.length) (hlen : toP.length ≤ fromP.length) :
    writeAt (writeAt source i0 (List.replicate fromP.length 0)) i0 toP =
      source.take i0 ++ toP ++ List.replicate (fromP.length - toP.length) 0 ++
        source.drop (i0 + fromP.length) := by
  have htake : (source.take i0).length = i0 := by
    rw [List.length_take]; omega
  have h1 : writeAt source i0 (List.replicate fromP.length 0) =
      source.take i0 ++ List.replicate fromP.length 0 ++ source.drop (i0 + fromP.length) := by
    have := writeAt_eq_take_append_drop (List.replicate fromP.length 0) source i0
      (by rw [List.length_replicate]; exact hb)
    rwa [List.length_replicate] at this
  have hW1len : (writeAt source i0 (List.replicate fromP.length 0)).length = source.length :=
    length_writeAt _ source i0
  have h2 := writeAt_eq_take_append_drop toP
    (writeAt source i0 (List.replicate fromP.length 0)) i0 (by rw [hW1len]; omega)
  rw [h2, h1]
  have hrep : List.replicate fromP.length (0 : Nat) =
      List.replicate toP.length 0 ++ List.replicate (fromP.length - toP.length) 0 := by
    rw [← List.replicate_add]
    congr 1
    omega
  rw [hrep]
  have htk : (source.take i0 ++ (List.replicate toP.length 0 ++
      List.replicate (fromP.length - toP.length) 0) ++ source.drop (i0 + fromP.length)).take i0 =
      source.take i0 := by
    rw [List.append_assoc, List.take_append_eq_append_take, htake]
    simp
  have hdp : (source.take i0 ++ (List.replicate toP.length 0 ++
      List.replicate (fromP.length - toP.length) 0) ++ source.drop (i0 + fromP.length)).drop
        (i0 + toP.length) =
      List.replicate (fromP.length - toP.length) 0 ++ source.drop (i0 + fromP.length) := by
    rw [List.append_assoc, List.drop_append_eq_append_drop, htake,
      List.drop_eq_nil_of_le (by omega)]
    have hstep : i0 + toP.length - i0 = toP.length := by omega
    rw [hstep, List.nil_append, List.append_assoc,
      List.drop_left' (List.length_replicate toP.length 0)]
  rw [htk, hdp]
  simp [List.append_assoc]

theorem occursAtB_true_elim (src fromP : List Nat) (i : Nat)
    (h : occursAtB src fromP i = true) :
    i + fromP.length ≤ src.length ∧ matchesAt src fromP i = true := by
  simpa [occursAtB] using h

theorem matchesAt_false_of_occursAtB_false (src fromP : List Nat) (i : Nat)
    (hb : i + fromP.length ≤ src.length) (h : occursAtB src fromP i = false) :
    matchesAt src fromP i = false := by
  have hd : decide (i + fromP.length ≤ src.length) = true := decide_eq_true hb
  rw [occursAtB, hd, Bool.true_and] at h
  exact h

theorem replace_slice_eq_of_le (source fromP toP : List Nat)
    (h : max fromP.length toP.length ≤ source.length) :
    replace_slice source fromP toP =
      some ((replaceRun fromP toP source
          (source.length - max fromP.length toP.length + 1)).1,
        (replaceRun fromP toP source
          (source.length - max fromP.length toP.length + 1)).2.length) := by
  simp only [replace_slice]
  rw [if_neg (by omega)]

theorem replace_slice_eq_none (source fromP toP : List Nat)
    (h : source.length < max fromP.length toP.length) :
    replace_slice source fromP toP = none := by
  simp only [replace_slice]
  rw [if_pos h]

/-- C1 (counterexample): the claim fails as stated.  The region
`[0, 0, 7, 7]` contains exactly one occurrence of `from = [0, 0, 7]`
(at offset 0), and `to = []` satisfies `len(to) ≤ len(from)`, yet
`replace_slice` returns 2, not 1, and the final region is `[0, 0, 0, 0]`
rather than the claimed `before ++ to ++ zero padding ++ after =
[0, 0, 0, 7]`: the scan resumes at offset 1 and re-matches the bytes the
first replacement just zero-filled. -/
theorem c1_counterexample :
    countOccurrences [0, 0, 7, 7] [0, 0, 7] = 1 ∧
    List.length ([] : List Nat) ≤ List.length [0, 0, 7] ∧
    replace_slice [0, 0, 7, 7] [0, 0, 7] [] = some ([0, 0, 0, 0], 2) ∧
    replace_slice [0, 0, 7, 7] [0, 0, 7] [] ≠
      some (List.take 0 [0, 0, 7, 7] ++ [] ++ List.replicate 3 0 ++
        List.drop 3 [0, 0, 7, 7], 1) := by
  decide

/-- C1 (amended): for a region with exactly one occurrence of `fromP`
(at offset `i0`) and `len(to) ≤ len(from)`, PROVIDED the rewritten region
`before ++ to ++ zero padding ++ after` contains no new occurrence of
`fromP` at any other scan offset, `replace_slice` returns 1 and the region
equals the bytes before the match, then `to`, then zero bytes padding out
the remaining `len(from) - len(to)` positions, then the bytes after the
match unchanged. -/
theorem c1_single_occurrence_replace (source fromP toP : List Nat) (i0 : Nat)
    (h1 : occursAtB source fromP i0 = true)
    (h2 : ∀ i < source.length, i ≠ i0 → occursAtB source fromP i = false)
    (hlen : toP.length ≤ fromP.length)
    (h3 : ∀ i < source.length - fromP.length + 1, i ≠ i0 →
      matchesAt (source.take i0 ++ toP ++
        List.replicate (fromP.length - toP.length) 0 ++
        source.drop (i0 + fromP.length)) fromP i = false) :
    replace_slice source fromP toP =
      some (source.take i0 ++ toP ++
        List.replicate (fromP.length - toP.length) 0 ++
        source.drop (i0 + fromP.length), 1) := by
  obtain ⟨hb, hm⟩ := occursAtB_true_elim source fromP i0 h1
  have hmax : max fromP.length toP.length = fromP.length := Nat.max_eq_left hlen
  have hfit : max fromP.length toP.length ≤ source.length := by omega
  rw [replace_slice_eq_of_le source fromP toP hfit, hmax]
  have hrun := replaceRun_single fromP toP source (source.length - fromP.length + 1) i0
    (by omega) ?hpre hm ?hpost
  · rw [hrun, rewrite_buffer_eq source fromP toP i0 hb hlen]
    rfl
  case hpre =>
    intro i hi
    exact matchesAt_false_of_occursAtB_false source fromP i (by omega)
      (h2 i (by omega) (by omega))
  case hpost =>
    intro i hgt hlt
    rw [rewrite_buffer_eq source fromP toP i0 hb hlen]
    exact h3 i hlt (by omega)

/-- C1 (witness): a concrete single-occurrence replacement with a shorter
`to`: in `[9, 1, 2, 9]` the pattern `[1, 2]` occurs only at offset 1 and the
rewritten region `[9, 7, 0, 9]` re-matches nowhere, so the amended theorem
applies and gives count 1 with zero padding. -/
theorem c1_single_occurrence_replace_witness :
    replace_slice [9, 1, 2, 9] [1, 2] [7] =
      some (List.take 1 [9, 1, 2, 9] ++ [7] ++
        List.replicate (List.length [1, 2] - List.length [7]) 0 ++
        List.drop (1 + List.length [1, 2]) [9, 1, 2, 9], 1) :=
  c1_single_occurrence_replace [9, 1, 2, 9] [1, 2] [7] 1
    (by decide) (by decide) (by decide) (by decide)

/-- C2 (counterexample): the claim fails as stated.  With `from = []` and a
region of length 3 the scan range is not empty: every offset trivially
matches and `replace_slice` returns 4, not 0.  And with a region shorter
than `max(len(from), len(to))` the range computation
`source.len() - end_offset + 1` underflows and the call panics (modelled as
`none`) instead of returning 0. -/
theorem c2_counterexample :
    replace_slice [1, 2, 3] [] [] = some ([1, 2, 3], 4) ∧
    replace_slice [] [1, 1] [] = none := by
  decide

/-- C2 (amended): when `len(from) = 0` or the region is shorter than
`max(len(from), len(to))`, the call never returns 0: a too-short region
makes the `usize` subtraction underflow, so the call panics; and an empty
`from` with a long-enough region matches trivially at every scan offset, so
the call returns `len(region) - len(to) + 1 > 0` replacements. -/
theorem c2_short_region_or_empty_pattern (source fromP toP : List Nat)
    (h : fromP = [] ∨ source.length < max fromP.length toP.length) :
    replace_slice source fromP toP = none ∨
      (Option.map Prod.snd (replace_slice source fromP toP) =
          some (source.length - toP.length + 1) ∧
        0 < source.length - toP.length + 1) := by
  by_cases hlt : source.length < max fromP.length toP.length
  · exact Or.inl (replace_slice_eq_none source fromP toP hlt)
  · have hf : fromP = [] := h.resolve_right hlt
    subst hf
    have hmax : max (List.length ([] : List Nat)) toP.length = toP.length := by
      simp
    right
    rw [replace_slice_eq_of_le _ _ _ (by omega)]
    constructor
    · simp only [Option.map_some', hmax]
      rw [replaceRun, foldl_count_nil toP _ source []]
      simp [List.length_range]
    · omega

/-- C2 (witness): with `from = [] `, `to = []` and region `[1]` the amended
theorem applies: the run does not panic and reports `1 - 0 + 1 = 2`
trivial replacements, a nonzero count. -/
theorem c2_short_region_or_empty_pattern_witness :
    replace_slice [1] [] [] = none ∨
      (Option.map Prod.snd (replace_slice [1] [] []) =
          some (List.length [1] - List.length ([] : List Nat) + 1) ∧
        0 < List.length [1] - List.length ([] : List Nat) + 1) :=
  c2_short_region_or_empty_pattern [1] [] [] (Or.inl rfl)

/-- C5 (counterexample): the claim fails as stated because it quantifies
over regions shorter than the patterns: the empty region does not contain
the non-empty pattern `[1]`, yet `replace_slice [] [1] [1]` panics on the
underflowing range computation (modelled as `none`) instead of returning 0
with the region unchanged. -/
theorem c5_counterexample :
    countOccurrences [] [1] = 0 ∧
    ([1] : List Nat) ≠ [] ∧
    replace_slice [] [1] [1] = none ∧
    replace_slice [] [1] [1] ≠ some ([], 0) := by
  decide

/-- C5 (amended): for every region of length at least
`max(len(from), len(to))` and every non-empty `from` pattern that occurs
nowhere in the region, `replace_slice` returns 0 and leaves the region
byte-for-byte unchanged; regions shorter than that make the scan-range
subtraction underflow and panic. -/
theorem c5_no_occurrence_unchanged (source fromP toP : List Nat)
    (hne : fromP ≠ [])
    (hno : ∀ i < source.length, occursAtB source fromP i = false)
    (hsafe : max fromP.length toP.length ≤ source.length) :
    replace_slice source fromP toP = some (source, 0) := by
  have hpos : 0 < fromP.length := List.length_pos.mpr hne
  rw [replace_slice_eq_of_le source fromP toP hsafe]
  have hfl : fromP.length ≤ max fromP.length toP.length := Nat.le_max_left _ _
  rw [replaceRun, foldl_no_match fromP toP _ source [] ?_]
  · rfl
  · intro i hi
    rw [List.mem_range] at hi
    have hbound : i + fromP.length ≤ source.length := by omega
    exact matchesAt_false_of_occursAtB_false source fromP i hbound
      (hno i (by omega))

/-- C5 (witness): the pattern `[1]` does not occur in `[5, 6]`, the region
is long enough, and the call returns 0 leaving the region unchanged. -/
theorem c5_no_occurrence_unchanged_witness :
    replace_slice [5, 6] [1] [] = some ([5, 6], 0) :=
  c5_no_occurrence_unchanged [5, 6] [1] [] (by decide) (by decide) (by decide)

/-- C6: whenever `replace_slice` completes, the region's length is
unchanged, and every byte whose offset lies outside the span
`[i, i + max(len(from), len(to)))` of every matched start offset `i`
retains its original value. -/
theorem c6_length_and_frame (source fromP toP res : List Nat) (cnt : Nat)
    (h : replace_slice source fromP toP = some (res, cnt)) :
    res.length = source.length ∧
    ∀ k, (∀ i ∈ matchedOffsets source fromP toP,
        k < i ∨ i + max fromP.length toP.length ≤ k) →
      res.getD k 0 = source.getD k 0 := by
  by_cases hlt : source.length < max fromP.length toP.length
  · rw [replace_slice_eq_none source fromP toP hlt] at h
    exact absurd h (by simp)
  · rw [replace_slice_eq_of_le source fromP toP (by omega)] at h
    simp only [Option.some.injEq, Prod.mk.injEq] at h
    have hres : res = (replaceRun fromP toP source
        (source.length - max fromP.length toP.length + 1)).1 := h.1.symm
    have hE : (List.range (source.length - max fromP.length toP.length + 1)).foldl
        (replaceStep fromP toP) (source, []) =
        (res, matchedOffsets source fromP toP) := by
      rw [matchedOffsets, hres]
      rfl
    constructor
    · rw [hres, replaceRun]
      exact foldl_fst_length fromP toP _ source []
    · intro k hk
      exact foldl_frame fromP toP _ source [] res
        (matchedOffsets source fromP toP) hE k hk

/-- C6 (witness): for the call `replace_slice [1, 2, 3] [2] [5]` the single
match is at offset 1, so offset 0 lies outside every matched span and keeps
its byte, and the length is preserved. -/
theorem c6_length_and_frame_witness :
    List.length [1, 5, 3] = List.length [1, 2, 3] ∧
    List.getD [1, 5, 3] 0 0 = List.getD [1, 2, 3] 0 0 :=
  ⟨(c6_length_and_frame [1, 2, 3] [2] [5] [1, 5, 3] 1 (by decide)).1,
   (c6_length_and_frame [1, 2, 3] [2] [5] [1, 5, 3] 1 (by decide)).2 0 (by decide)⟩

/-- C7: when `len(to) > len(from)`, a replacement at a matched offset `i`
rewrites the bytes at `[i, i + len(to))` to `to` — spilling exactly
`len(to) - len(from)` bytes past the original match's end
`i + len(from)` — and leaves every byte at offsets below `i` or at or above
`i + len(to)` untouched by this replacement. -/
theorem c7_spill_extent (src fromP toP acc : List Nat) (i : Nat)
    (hlen : fromP.length < toP.length)
    (hb : i + toP.length ≤ src.length)
    (hm : matchesAt src fromP i = true) :
    (replaceStep fromP toP (src, acc) i).1 =
      src.take i ++ toP ++ src.drop (i + toP.length) ∧
    ((replaceStep fromP toP (src, acc) i).1.drop (i + fromP.length)).take
        (toP.length - fromP.length) = toP.drop fromP.length := by
  have htake : (src.take i).length = i := by
    rw [List.length_take]; omega
  have hmain : (replaceStep fromP toP (src, acc) i).1 =
      src.take i ++ toP ++ src.drop (i + toP.length) := by
    simp only [replaceStep, hm, if_true]
    have h1 : writeAt src i (List.replicate fromP.length 0) =
        src.take i ++ List.replicate fromP.length 0 ++ src.drop (i + fromP.length) := by
      have := writeAt_eq_take_append_drop (List.replicate fromP.length 0) src i
        (by rw [List.length_replicate]; omega)
      rwa [List.length_replicate] at this
    have hW1len : (writeAt src i (List.replicate fromP.length 0)).length = src.length :=
      length_writeAt _ src i
    have h2 := writeAt_eq_take_append_drop toP
      (writeAt src i (List.replicate fromP.length 0)) i (by rw [hW1len]; omega)
    rw [h2, h1]
    have htk : (src.take i ++ List.replicate fromP.length 0 ++
        src.drop (i + fromP.length)).take i = src.take i := by
      rw [List.append_assoc, List.take_append_eq_append_take, htake]
      simp
    have hdp : (src.take i ++ List.replicate fromP.length 0 ++
        src.drop (i + fromP.length)).drop (i + toP.length) =
        src.drop (i + toP.length) := by
      rw [List.append_assoc, List.drop_append_eq_append_drop, htake,
        List.drop_eq_nil_of_le (by omega), List.nil_append,
        List.drop_append_eq_append_drop, List.length_replicate,
        List.drop_eq_nil_of_le (by rw [List.length_replicate]; omega),
        List.nil_append, List.drop_drop]
      congr 1
      omega
    rw [htk, hdp]
  refine ⟨hmain, ?_⟩
  rw [hmain, List.append_assoc, List.drop_append_eq_append_drop, htake,
    List.drop_eq_nil_of_le (by omega), List.nil_append,
    List.drop_append_eq_append_drop]
  have hi : i + fromP.length - i = fromP.length := by omega
  have hz : fromP.length - toP.length = 0 := by omega
  rw [hi, hz, List.drop_zero, List.take_append_eq_append_take,
    List.length_drop]
  have hlen2 : toP.length - fromP.length - (toP.length - fromP.length) = 0 := by omega
  rw [List.take_of_length_le (by rw [List.length_drop]), hlen2, List.take_zero,
    List.append_nil]

/-- C7 (witness): replacing the match of `[1]` at offset 0 of `[1, 9]` by
`[7, 8]` rewrites both bytes, spilling exactly one byte (the tail of `to`)
past the original match's end. -/
theorem c7_spill_extent_witness :
    (replaceStep [1] [7, 8] ([1, 9], []) 0).1 =
      List.take 0 [1, 9] ++ [7, 8] ++ List.drop (0 + List.length [7, 8]) [1, 9] ∧
    ((replaceStep [1] [7, 8] ([1, 9], []) 0).1.drop (0 + List.length [1])).take
        (List.length [7, 8] - List.length [1]) = List.drop (List.length [1]) [7, 8] :=
  c7_spill_extent [1, 9] [1] [7, 8] [] 0 (by decide) (by decide) (by decide)

/-- C8: the scan resumes one byte after a replaced match and may re-match
bytes it has just written: there are a region, a pattern and an
equal-length replacement for which `replace_slice` reports strictly more
replacements than the region originally contained occurrences of the
pattern. -/
theorem c8_rescan_overcount :
    ∃ (source fromP toP res : List Nat) (cnt : Nat),
      toP.length = fromP.length ∧
      replace_slice source fromP toP = some (res, cnt) ∧
      countOccurrences source fromP < cnt :=
  ⟨[1, 2, 2], [1, 2], [2, 1], [2, 2, 1], 2, by decide, by decide, by decide⟩

theorem length_flatMap_u16le (l : List Nat) :
    (l.flatMap u16le).length = 2 * l.length := by
  induction l with
  | nil => rfl
  | cons v vs ih =>
    simp only [List.flatMap_cons, List.length_append, ih, u16le, List.length_cons,
      List.length_nil]
    omega

/-- C4: the Text Codec output is exactly the UTF-16 little-endian byte
encoding of the input (two bytes per code unit, low byte first) followed by
a two-byte zero terminator; consequently it always has even length and is
at least 2 bytes long. -/
theorem c4_codec_utf16le_terminated (s : List Nat) :
    string_to_utf16_vec s = utf16le_bytes s ++ [0, 0] ∧
    2 ∣ (string_to_utf16_vec s).length ∧
    2 ≤ (string_to_utf16_vec s).length := by
  have heq : string_to_utf16_vec s = utf16le_bytes s ++ [0, 0] := by
    rw [string_to_utf16_vec, utf16le_bytes, List.flatMap_append]
    rfl
  have hlen : (string_to_utf16_vec s).length =
      2 * (s.flatMap encodeUtf16Char).length + 2 := by
    rw [heq, List.length_append, utf16le_bytes, length_flatMap_u16le]
    rfl
  exact ⟨heq, by omega, by omega⟩

/-- C3: a translation entry whose encoded translation is strictly longer
than its encoded original is, when the override flag is off, skipped without
calling the Substitutor: the run on `t :: rest` equals the run on `rest`
from the same unchanged region, with exactly one extra skip warning
prepended, and it never aborts on that entry. -/
theorem c3_skip_growing_translation (slice : List Nat) (t : Translation)
    (rest : List Translation)
    (h : (string_to_utf16_vec t.original).length <
      (string_to_utf16_vec t.translated).length) :
    translate slice (t :: rest) false =
      (translate slice rest false).map
        (fun r => (r.1, Diag.warnSkip t.original t.translated :: r.2)) := by
  simp only [translate]
  rw [if_pos h]
  simp

/-- C3 (witness): translating `A` to `AB` (encoded lengths 4 and 6) with the
flag off skips the entry, prepends one warning, and leaves the region for
the remaining (empty) table. -/
theorem c3_skip_growing_translation_witness :
    translate [] [⟨[65], [65, 66]⟩] false =
      (translate [] [] false).map
        (fun r => (r.1, Diag.warnSkip [65] [65, 66] :: r.2)) :=
  c3_skip_growing_translation [] ⟨[65], [65, 66]⟩ [] (by decide)

/-- C10: the Translation Applier is strictly sequential in table order:
running the concatenated table `ts1 ++ ts2` over a region gives the same
outcome (final region, diagnostics, and panic behaviour) as running `ts1`
and then running `ts2` on the region `ts1` produced. -/
theorem c10_sequential_composition (ts2 : List Translation) (ph : Bool) :
    ∀ (ts1 : List Translation) (slice : List Nat),
    translate slice (ts1 ++ ts2) ph =
      (translate slice ts1 ph).bind (fun r =>
        (translate r.1 ts2 ph).map (fun r2 => (r2.1, r.2 ++ r2.2))) := by
  intro ts1
  induction ts1 with
  | nil =>
    intro slice
    simp only [List.nil_append, translate, Option.some_bind]
    cases h : translate slice ts2 ph with
    | none => rfl
    | some r => simp
  | cons t ts1 ih =>
    intro slice
    simp only [List.cons_append, List.append_eq, translate]
    by_cases hlt : (string_to_utf16_vec t.original).length <
        (string_to_utf16_vec t.translated).length
    · rw [if_pos hlt, if_pos hlt]
      cases ph with
      | false =>
        simp only [Bool.false_eq_true, if_false]
        rw [ih slice]
        cases h1 : translate slice ts1 false with
        | none => rfl
        | some r1 =>
          simp only [Option.some_bind, Option.map_some', Option.map_map]
          rfl
      | true =>
        simp only [if_true]
        cases hrep : replace_slice slice (string_to_utf16_vec t.original)
            (string_to_utf16_vec t.translated) with
        | none => simp
        | some st =>
          simp only [Option.some_bind]
          rw [ih st.1]
          cases h1 : translate st.1 ts1 true with
          | none => rfl
          | some r1 =>
            simp only [Option.some_bind, Option.map_some', Option.map_map]
            rfl
    · rw [if_neg hlt, if_neg hlt]
      cases hrep : replace_slice slice (string_to_utf16_vec t.original)
          (string_to_utf16_vec t.translated) with
      | none => simp
      | some st =>
        simp only [Option.some_bind]
        rw [ih st.1]
        cases h1 : translate st.1 ts1 ph with
        | none => rfl
        | some r1 =>
          simp only [Option.some_bind, Option.map_some', Option.map_map]
          rfl

/-- C9 (counterexample): the claim fails as stated: a section whose name
cannot be decoded does abort the run, because the selector calls
`section.name().unwrap()`, which panics on the decoding error (modelled as
`none`). -/
theorem c9_counterexample :
    processSections [] [⟨none, 0, 0⟩] [] false = none := by
  rfl

/-- C9 (amended): a section whose name decodes to anything other than
`".rdata"` is excluded without any error: the section loop simply continues
with the remaining sections and the buffer untouched.  (A section whose
name cannot be decoded instead panics on `unwrap`, aborting the run.) -/
theorem c9_nonmatching_section_skipped (buf : List Nat) (s : PESection)
    (rest : List PESection) (ts : List Translation) (ph : Bool) (n : List Nat)
    (h1 : s.name = some n) (h2 : n ≠ rdataName) :
    processSections buf (s :: rest) ts ph = processSections buf rest ts ph := by
  simp only [processSections, processSection, h1]
  rw [if_neg h2]
  rfl

/-- C9 (witness): a `".text"` section (decodable, non-matching name) is
skipped and processing continues with the rest of the section list. -/
theorem c9_nonmatching_section_skipped_witness :
    processSections [] [⟨some [46, 116, 101, 120, 116], 0, 0⟩] [] false =
      processSections [] [] [] false :=
  c9_nonmatching_section_skipped [] ⟨some [46, 116, 101, 120, 116], 0, 0⟩ [] [] false
    [46, 116, 101, 120, 116] rfl (by decide)

end Translator
